import Mathlib

/-!
Verification of the keystroke-journaling core of the `wazzup` note-capture
application: the diff engine `computeEditOperation`
(apps/desktop/src/components/quick-panel.tsx), the persistent operation log
(packages/db/lib.ts), the recording-session state machine of the quick panel,
and the frame reconstructor / delay calculator of the replay window.

Text is modelled as `List Char` (a JS string as its sequence of characters).
-/

namespace Wazzup

/-- Edit-operation kinds: the `"insert" | "delete" | "replace"` union of the source. -/
inductive OpType where
  | insert
  | delete
  | replace
deriving DecidableEq, Repr

/-- The value `computeEditOperation` returns when the texts differ:
`{ type, position, content }`. -/
structure EditOp where
  type : OpType
  position : Nat
  content : List Char
deriving DecidableEq, Repr

/-- The `while (prefixLen < minLen && prevText[prefixLen] === newText[prefixLen])
prefixLen++` loop of `computeEditOperation`, with the iteration count bounded by
explicit fuel (the loop runs at most `minLen` times).  Out-of-range reads cannot
happen under the guard; `getD` supplies a dummy character. -/
def prefixLoopAux (prevText newText : List Char) : Nat → Nat → Nat
  | 0, p => p
  | fuel + 1, p =>
    if p < min prevText.length newText.length ∧ prevText.getD p ' ' = newText.getD p ' ' then
      prefixLoopAux prevText newText fuel (p + 1)
    else p

/-- `prefixLen` as `computeEditOperation` computes it: the longest-common-prefix
loop started at 0. -/
def diffPrefixLen (prevText newText : List Char) : Nat :=
  prefixLoopAux prevText newText (min prevText.length newText.length) 0

/-- The `while (suffixLen < minLen - prefixLen && prevText[prevText.length-1-suffixLen]
=== newText[newText.length-1-suffixLen]) suffixLen++` loop, fuel-bounded. -/
def suffixLoopAux (prevText newText : List Char) (bound : Nat) : Nat → Nat → Nat
  | 0, s => s
  | fuel + 1, s =>
    if s < bound ∧
        prevText.getD (prevText.length - 1 - s) ' ' = newText.getD (newText.length - 1 - s) ' ' then
      suffixLoopAux prevText newText bound fuel (s + 1)
    else s

/-- `suffixLen` as `computeEditOperation` computes it: the common-suffix loop,
bounded by `minLen - prefixLen` so the suffix cannot overlap the prefix. -/
def diffSuffixLen (prevText newText : List Char) : Nat :=
  suffixLoopAux prevText newText
    (min prevText.length newText.length - diffPrefixLen prevText newText)
    (min prevText.length newText.length - diffPrefixLen prevText newText) 0

/-- JavaScript `str.slice(i, j)` on a character list (for `i ≤ j`; an empty
result when `j ≤ i`, as in JS). -/
def slice (l : List Char) (i j : Nat) : List Char :=
  (l.drop i).take (j - i)

/-- `deletedContent = prevText.slice(prefixLen, prevText.length - suffixLen)`. -/
def diffDeleted (prevText newText : List Char) : List Char :=
  slice prevText (diffPrefixLen prevText newText)
    (prevText.length - diffSuffixLen prevText newText)

/-- `insertedContent = newText.slice(prefixLen, newText.length - suffixLen)`. -/
def diffInserted (prevText newText : List Char) : List Char :=
  slice newText (diffPrefixLen prevText newText)
    (newText.length - diffSuffixLen prevText newText)

/-- The diff engine `computeEditOperation(prevText, newText, cursorPos)` of
`quick-panel.tsx`: equal texts give `null`; otherwise the longest common prefix
and the (prefix-bounded) common suffix are stripped and the remaining deleted /
inserted segments classify the operation.  JS truthiness of a string is
non-emptiness.  `cursorPos` is accepted and, as in the source, never used. -/
def computeEditOperation (prevText newText : List Char) (cursorPos : Nat) : Option EditOp :=
  if prevText = newText then none
  else if diffDeleted prevText newText ≠ [] ∧ diffInserted prevText newText ≠ [] then
    some ⟨OpType.replace, diffPrefixLen prevText newText, diffInserted prevText newText⟩
  else if diffInserted prevText newText ≠ [] then
    some ⟨OpType.insert, diffPrefixLen prevText newText, diffInserted prevText newText⟩
  else if diffDeleted prevText newText ≠ [] then
    some ⟨OpType.delete, diffPrefixLen prevText newText, diffDeleted prevText newText⟩
  else none

/-- Structural longest-common-prefix length, the mathematical reading of the
prefix loop; the loop is proved equal to it below. -/
def commonPrefixLen : List Char → List Char → Nat
  | a :: as, b :: bs => if a = b then commonPrefixLen as bs + 1 else 0
  | _, _ => 0

/-! ### Frame reconstructor and delay calculator (replay window)

`generateFrames` and `calculateFrameDelays` live in
`packages/actions/scripts/animation/utils/playbackEngine.ts`, which is not in
the repository snapshot; only their call site in `replay-window.tsx` is.  They
are modelled from the spec, §4.3 and §4.4. -/

/-- A reconstructed document snapshot (spec §3 `PlaybackFrame`). -/
structure PlaybackFrame where
  sequence_index : Nat
  content : List Char
  cursorPosition : Nat
deriving DecidableEq, Repr

/-- An operation as the replayer consumes it.  Besides the journalled
`type`/`position`/`content`, it carries `replacedLen`: the length of the span a
`replace` overwrote, derived at diff time (spec §4.3 requires the replaced-span
length to be stored or derived at diff time, since `replace` alone does not
carry it structurally; §9 recommends storing it). -/
structure ReplayOp where
  type : OpType
  position : Nat
  content : List Char
  replacedLen : Nat
deriving DecidableEq, Repr

/-- Modelled from the spec: §4.3 replay rules of `generateFrames`
(`playbackEngine.ts` is missing from the snapshot).  Applies one operation to
the current content, returning the new content and cursor:
`insert`: splice `content` in at `position`, cursor lands after it;
`delete`: remove `content.length` characters at `position`, cursor at `position`;
`replace`: delete-then-insert at `position`, removing the `replacedLen`
characters the insertion overwrote. -/
def applyReplayOp (content : List Char) (op : ReplayOp) : List Char × Nat :=
  match op.type with
  | OpType.insert =>
      (content.take op.position ++ op.content ++ content.drop op.position,
       op.position + op.content.length)
  | OpType.delete =>
      (content.take op.position ++ content.drop (op.position + op.content.length),
       op.position)
  | OpType.replace =>
      (content.take op.position ++ op.content ++ content.drop (op.position + op.replacedLen),
       op.position + op.content.length)

/-- Modelled from the spec: the frame-building recursion of §4.3, one frame per
applied operation (the synthetic zero frame is excluded, as §4.3 assumes). -/
def generateFramesAux (content : List Char) (cursor idx : Nat) :
    List ReplayOp → List PlaybackFrame
  | [] => []
  | op :: rest =>
      let st := applyReplayOp content op
      ⟨idx, st.1, st.2⟩ :: generateFramesAux st.1 st.2 (idx + 1) rest

/-- Modelled from the spec: `generateFrames(operations)` of §4.3 — replay the
ordered log against the empty initial state `content = "", cursor = 0`. -/
def generateFrames (ops : List ReplayOp) : List PlaybackFrame :=
  generateFramesAux [] 0 0 ops

/-- The journaling side of one transition: the diff operation augmented with
the replaced-span length `(diffDeleted prev next).length`, derived at diff time
(spec §4.3/§9). -/
def computeReplayOp (prevText newText : List Char) (cursorPos : Nat) : Option ReplayOp :=
  match computeEditOperation prevText newText cursorPos with
  | none => none
  | some op => some ⟨op.type, op.position, op.content, (diffDeleted prevText newText).length⟩

/-- Journal a whole session: for the text sequence `prev, t₁, t₂, …` record the
operation of each consecutive transition (a `none` diff appends nothing, per
spec §4.5 "zero or one append call per detected text change"). -/
def journalOps : List Char → List (List Char) → List ReplayOp
  | _, [] => []
  | prevText, t :: ts =>
    match computeReplayOp prevText t 0 with
    | none => journalOps t ts
    | some op => op :: journalOps t ts

/-- Modelled from the spec: the per-transition recursion of
`calculateFrameDelays` (§4.4) over the capture timestamps, previous timestamp
in hand: delay before the next frame is `(t − prevTs) / speed`, clamped to be
non-negative. -/
def frameDelaysAux (speed : ℚ) : Int → List Int → List ℚ
  | _, [] => []
  | prevTs, t :: rest => max 0 ((((t - prevTs : Int) : ℚ)) / speed) :: frameDelaysAux speed t rest

/-- Modelled from the spec: `calculateFrameDelays(frames, speed)` of §4.4
(`playbackEngine.ts` is missing from the snapshot), with a frame's contribution
reduced to its capture timestamp `timestamp_ms`: one delay per frame
transition, `(timestamp_ms[i] − timestamp_ms[i−1]) / speed` clamped to a
non-negative minimum.  Pure in `(timestamps, speed)`. -/
def calculateFrameDelays (timestamps : List Int) (speed : ℚ) : List ℚ :=
  match timestamps with
  | [] => []
  | t :: rest => frameDelaysAux speed t rest

/-! ### The operation log (packages/db/lib.ts over the drizzle schema) -/

/-- A row of the `edit_operations` table (packages/db/schema.ts):
`thought_id` is nullable, `content_length` is stored redundantly. -/
structure EditRow where
  id : Nat
  thought_id : Option Int
  sequence_num : Nat
  operation_type : String
  position : Nat
  content : List Char
  content_length : Nat
  timestamp_ms : Int
deriving DecidableEq, Repr

/-- The SQLite store: rows in insertion order plus the autoincrement counter. -/
structure Db where
  rows : List EditRow
  nextId : Nat
deriving DecidableEq, Repr

/-- `createEditOperation` of packages/db/lib.ts: inserts the record (with
`content_length: content.length`) and returns it. -/
def createEditOperation (db : Db) (thought_id : Option Int) (sequence_num : Nat)
    (operation_type : String) (position : Nat) (content : List Char)
    (timestamp_ms : Int) : Db × EditRow :=
  let row : EditRow :=
    ⟨db.nextId, thought_id, sequence_num, operation_type, position, content,
      content.length, timestamp_ms⟩
  (⟨db.rows ++ [row], db.nextId + 1⟩, row)

/-- Stable insertion of a row into a `sequence_num`-sorted list: the row goes
after every earlier row whose key is not larger. -/
def insertBySeq (r : EditRow) : List EditRow → List EditRow
  | [] => [r]
  | x :: xs => if x.sequence_num < r.sequence_num then x :: insertBySeq r xs else r :: x :: xs

/-- Stable sort by `sequence_num` (the `orderBy(editOperations.sequence_num)`
of the query builder). -/
def sortBySeq : List EditRow → List EditRow
  | [] => []
  | x :: xs => insertBySeq x (sortBySeq xs)

/-- `getEditOperations(thought_id)` of packages/db/lib.ts: the rows of that
session, ordered by `sequence_num` ascending. -/
def getEditOperations (db : Db) (thought_id : Int) : List EditRow :=
  sortBySeq (db.rows.filter (fun r => r.thought_id == some thought_id))

/-- `updateEditOperationsThoughtId(old, new)` of packages/db/lib.ts: every row
whose `thought_id` matches `old` (`isNull` when `old` is null) is relabelled
`new`. -/
def updateEditOperationsThoughtId (db : Db) (old_thought_id : Option Int)
    (new_thought_id : Int) : Db :=
  ⟨db.rows.map (fun r =>
      if r.thought_id = old_thought_id then { r with thought_id := some new_thought_id } else r),
    db.nextId⟩

/-- `deleteEditOperations(thought_id)` of packages/db/lib.ts: every row of that
session (the null session when `thought_id` is null) is removed. -/
def deleteEditOperations (db : Db) (thought_id : Option Int) : Db :=
  ⟨db.rows.filter (fun r => !(r.thought_id == thought_id)), db.nextId⟩

/-- The `sequence_num`s persisted for a session, in row (insertion) order. -/
def seqsFor (db : Db) (sid : Int) : List Nat :=
  (db.rows.filter (fun r => r.thought_id == some sid)).map (fun r => r.sequence_num)

/-- The string the UI stores for an operation type. -/
def opTypeString : OpType → String
  | OpType.insert => "insert"
  | OpType.delete => "delete"
  | OpType.replace => "replace"

/-- One observed text change handed to `handleInputChange` while recording:
previous value (the `lastInputValueRef`), new value, cursor, wall clock. -/
structure AppendInput where
  prevText : List Char
  newText : List Char
  cursor : Nat
  now : Int
deriving Repr

/-- The state the append path threads: the store plus the quick panel's
in-memory `sequenceNum` counter. -/
structure RecState where
  db : Db
  sequenceNum : Nat
deriving Repr

/-- The record-mode branch of `handleInputChange` (quick-panel.tsx): diff the
transition; on a non-null operation increment the counter first and persist the
record carrying the incremented value as its `sequence_num`. -/
def appendStep (sid : Int) (st : RecState) (inp : AppendInput) : RecState :=
  match computeEditOperation inp.prevText inp.newText inp.cursor with
  | none => st
  | some op =>
      let newSeqNum := st.sequenceNum + 1
      ⟨(createEditOperation st.db (some sid) newSeqNum (opTypeString op.type)
          op.position op.content inp.now).1,
        newSeqNum⟩

/-- A series of appends for one recording session. -/
def runAppends (sid : Int) : RecState → List AppendInput → RecState
  | st, [] => st
  | st, inp :: rest => runAppends sid (appendStep sid st inp) rest

/-! ### The quick panel's recording state machine (quick-panel.tsx) -/

/-- The component state of `QuickPanel` that the recording lifecycle touches.
`currentSessionId` is fixed by `useState(() => -Date.now())` when the panel
mounts and never reassigned. -/
structure PanelState where
  currentSessionId : Int
  recordMode : Bool
  sequenceNum : Nat
  editCount : Nat
  confirmingDiscard : Bool
  lastInputValue : List Char
  input : List Char
deriving DecidableEq, Repr

/-- The panel as mounted at wall-clock time `now`: record mode off, counters
zero, provisional session identity `-now`. -/
def initPanel (now : Int) : PanelState :=
  ⟨-now, false, 0, 0, false, [], []⟩

/-- The user-interface events that drive the recording lifecycle. -/
inductive PanelEvent where
  | toggleRecord
  | inputChange (newValue : List Char) (cursor : Nat)
  | confirmDiscard
  | escape
  | submitSuccess
deriving Repr

/-- One step of the quick panel's handlers:
`toggleRecord` is the Cmd+R branch of `handleKeyDown` (the Tauri call flips the
mode; counters reset when turning off with edits);
`inputChange` is `handleInputChange` (diff against `lastInputValueRef`, advance
the counter on a non-null operation while recording);
`confirmDiscard` the `y` branch, `escape` the Escape branch, `submitSuccess`
the `createThought` success callback. -/
def panelStep (st : PanelState) : PanelEvent → PanelState
  | PanelEvent.toggleRecord =>
      let newState := !st.recordMode
      if newState = false ∧ st.editCount > 0 then
        { st with recordMode := newState, editCount := 0, sequenceNum := 0,
                  confirmingDiscard := false, lastInputValue := [] }
      else { st with recordMode := newState }
  | PanelEvent.inputChange newValue cursor =>
      let st1 := { st with input := newValue }
      let st2 :=
        if st.recordMode then
          match computeEditOperation st.lastInputValue newValue cursor with
          | some _ => { st1 with sequenceNum := st1.sequenceNum + 1,
                                 editCount := st1.sequenceNum + 1 }
          | none => st1
        else st1
      { st2 with lastInputValue := newValue }
  | PanelEvent.confirmDiscard =>
      if st.confirmingDiscard then
        { st with editCount := 0, sequenceNum := 0, recordMode := false,
                  confirmingDiscard := false, lastInputValue := [] }
      else st
  | PanelEvent.escape =>
      if st.confirmingDiscard then { st with confirmingDiscard := false }
      else if st.recordMode ∧ st.editCount > 0 then { st with confirmingDiscard := true }
      else st
  | PanelEvent.submitSuccess =>
      { st with input := [], editCount := 0, sequenceNum := 0, recordMode := false,
                confirmingDiscard := false, lastInputValue := [] }

/-- Run a sequence of panel events. -/
def runPanel : PanelState → List PanelEvent → PanelState
  | st, [] => st
  | st, e :: es => runPanel (panelStep st e) es

/-- The session identity in effect at each Idle → Recording transition
(record mode flipping from off to on) along an event trace. -/
def recordStartIds (st : PanelState) : List PanelEvent → List Int
  | [] => []
  | e :: es =>
      let st' := panelStep st e
      if st.recordMode = false ∧ st'.recordMode = true then
        st'.currentSessionId :: recordStartIds st' es
      else recordStartIds st' es

/-- The `sequenceNum` counter value at each Idle → Recording transition along
an event trace. -/
def recordStartSeqs (st : PanelState) : List PanelEvent → List Nat
  | [] => []
  | e :: es =>
      let st' := panelStep st e
      if st.recordMode = false ∧ st'.recordMode = true then
        st'.sequenceNum :: recordStartSeqs st' es
      else recordStartSeqs st' es

/-! ## Lemmas about the diff engine -/

theorem commonPrefixLen_nil_left (b : List Char) : commonPrefixLen [] b = 0 := rfl

theorem commonPrefixLen_nil_right : ∀ a : List Char, commonPrefixLen a [] = 0
  | [] => rfl
  | _ :: _ => rfl

theorem commonPrefixLen_le_left : ∀ a b : List Char, commonPrefixLen a b ≤ a.length
  | [], _ => Nat.zero_le _
  | _ :: _, [] => Nat.zero_le _
  | a :: as, b :: bs => by
      simp only [commonPrefixLen, List.length_cons]
      split
      · exact Nat.succ_le_succ (commonPrefixLen_le_left as bs)
      · exact Nat.zero_le _

theorem commonPrefixLen_le_right : ∀ a b : List Char, commonPrefixLen a b ≤ b.length
  | [], _ => Nat.zero_le _
  | _ :: _, [] => Nat.zero_le _
  | a :: as, b :: bs => by
      simp only [commonPrefixLen, List.length_cons]
      split
      · exact Nat.succ_le_succ (commonPrefixLen_le_right as bs)
      · exact Nat.zero_le _

theorem take_commonPrefixLen_eq : ∀ a b : List Char,
    a.take (commonPrefixLen a b) = b.take (commonPrefixLen a b)
  | [], b => by simp [commonPrefixLen_nil_left]
  | _ :: _, [] => by simp [commonPrefixLen_nil_right]
  | a :: as, b :: bs => by
      simp only [commonPrefixLen]
      split
      · next h => simp [List.take_succ_cons, h, take_commonPrefixLen_eq as bs]
      · simp

theorem take_eq_of_le_commonPrefixLen {a b : List Char} {k : Nat}
    (hk : k ≤ commonPrefixLen a b) : a.take k = b.take k := by
  have h := take_commonPrefixLen_eq a b
  have ha : a.take k = (a.take (commonPrefixLen a b)).take k := by
    rw [List.take_take, Nat.min_eq_left hk]
  rw [ha, h, List.take_take, Nat.min_eq_left hk]

theorem le_commonPrefixLen_of_take_eq : ∀ (a b : List Char) (k : Nat),
    k ≤ a.length → k ≤ b.length → a.take k = b.take k → k ≤ commonPrefixLen a b
  | _, _, 0, _, _, _ => Nat.zero_le _
  | [], _, k + 1, ha, _, _ => by simp at ha
  | _ :: _, [], k + 1, _, hb, _ => by simp at hb
  | a :: as, b :: bs, k + 1, ha, hb, he => by
      simp only [List.take_succ_cons, List.cons.injEq] at he
      obtain ⟨rfl, he'⟩ := he
      have hstep : commonPrefixLen (a :: as) (a :: bs) = commonPrefixLen as bs + 1 := by
        simp [commonPrefixLen]
      rw [hstep]
      have hr := le_commonPrefixLen_of_take_eq as bs k
        (by simpa using Nat.le_of_succ_le_succ (by simpa using ha))
        (by simpa using Nat.le_of_succ_le_succ (by simpa using hb)) he'
      omega

theorem getD_reverse (l : List Char) (i : Nat) (h : i < l.length) (d : Char) :
    l.reverse.getD i d = l.getD (l.length - 1 - i) d := by
  have hr : i < l.reverse.length := by simpa using h
  rw [List.getD_eq_getElem _ _ hr,
    List.getD_eq_getElem _ _ (show l.length - 1 - i < l.length by omega)]
  exact List.getElem_reverse hr

theorem commonPrefixLen_drop_succ (a b : List Char) (i : Nat)
    (ha : i < a.length) (hb : i < b.length) (hd : a.getD i ' ' = b.getD i ' ') :
    commonPrefixLen (a.drop i) (b.drop i)
      = commonPrefixLen (a.drop (i + 1)) (b.drop (i + 1)) + 1 := by
  rw [List.drop_eq_getElem_cons ha, List.drop_eq_getElem_cons hb]
  rw [List.getD_eq_getElem _ _ ha, List.getD_eq_getElem _ _ hb] at hd
  simp only [commonPrefixLen, if_pos hd]

theorem commonPrefixLen_drop_zero (a b : List Char) (i : Nat)
    (ha : i < a.length) (hb : i < b.length) (hd : ¬ a.getD i ' ' = b.getD i ' ') :
    commonPrefixLen (a.drop i) (b.drop i) = 0 := by
  rw [List.drop_eq_getElem_cons ha, List.drop_eq_getElem_cons hb]
  rw [List.getD_eq_getElem _ _ ha, List.getD_eq_getElem _ _ hb] at hd
  simp only [commonPrefixLen, if_neg hd]

theorem prefixLoopAux_eq : ∀ (fuel : Nat) (prevT newT : List Char) (p : Nat),
    min prevT.length newT.length - p ≤ fuel →
    prefixLoopAux prevT newT fuel p = p + commonPrefixLen (prevT.drop p) (newT.drop p)
  | 0, prevT, newT, p, hf => by
      have hp : min prevT.length newT.length ≤ p := by omega
      have : prevT.length ≤ p ∨ newT.length ≤ p := by omega
      rcases this with h | h
      · rw [prefixLoopAux, List.drop_eq_nil_iff.mpr h, commonPrefixLen_nil_left]
        omega
      · rw [prefixLoopAux, List.drop_eq_nil_iff.mpr h, commonPrefixLen_nil_right]
        omega
  | fuel + 1, prevT, newT, p, hf => by
      rw [prefixLoopAux]
      split
      · next hc =>
          obtain ⟨hp, heq⟩ := hc
          have hp1 : p < prevT.length := lt_of_lt_of_le hp (min_le_left _ _)
          have hp2 : p < newT.length := lt_of_lt_of_le hp (min_le_right _ _)
          rw [prefixLoopAux_eq fuel prevT newT (p + 1) (by omega)]
          rw [List.drop_eq_getElem_cons hp1, List.drop_eq_getElem_cons hp2]
          rw [List.getD_eq_getElem _ _ hp1, List.getD_eq_getElem _ _ hp2] at heq
          simp only [commonPrefixLen, if_pos heq]
          omega
      · next hc =>
          rw [not_and_or] at hc
          rcases hc with hp | hne
          · have hp' : min prevT.length newT.length ≤ p := by omega
            have : prevT.length ≤ p ∨ newT.length ≤ p := by omega
            rcases this with h | h
            · rw [List.drop_eq_nil_iff.mpr h, commonPrefixLen_nil_left]
              omega
            · rw [List.drop_eq_nil_iff.mpr h, commonPrefixLen_nil_right]
              omega
          · by_cases hp : p < min prevT.length newT.length
            · have hp1 : p < prevT.length := lt_of_lt_of_le hp (min_le_left _ _)
              have hp2 : p < newT.length := lt_of_lt_of_le hp (min_le_right _ _)
              rw [List.drop_eq_getElem_cons hp1, List.drop_eq_getElem_cons hp2]
              rw [List.getD_eq_getElem _ _ hp1, List.getD_eq_getElem _ _ hp2] at hne
              simp only [commonPrefixLen, if_neg hne, Nat.add_zero]
            · have : prevT.length ≤ p ∨ newT.length ≤ p := by omega
              rcases this with h | h
              · rw [List.drop_eq_nil_iff.mpr h, commonPrefixLen_nil_left]
                omega
              · rw [List.drop_eq_nil_iff.mpr h, commonPrefixLen_nil_right]
                omega

theorem diffPrefixLen_eq (prevT newT : List Char) :
    diffPrefixLen prevT newT = commonPrefixLen prevT newT := by
  unfold diffPrefixLen
  rw [prefixLoopAux_eq _ prevT newT 0 (by omega)]
  simp

theorem suffixLoopAux_eq : ∀ (fuel : Nat) (prevT newT : List Char) (bound s : Nat),
    bound ≤ min prevT.length newT.length → s ≤ bound → bound - s ≤ fuel →
    suffixLoopAux prevT newT bound fuel s =
      min (s + commonPrefixLen (prevT.reverse.drop s) (newT.reverse.drop s)) bound
  | 0, prevT, newT, bound, s, hbm, hsb, hf => by
      have hs : s = bound := by omega
      rw [suffixLoopAux, hs, Nat.min_eq_right (Nat.le_add_right _ _)]
  | fuel + 1, prevT, newT, bound, s, hbm, hsb, hf => by
      rw [suffixLoopAux]
      split
      · next hc =>
          obtain ⟨hs, heq⟩ := hc
          have hs1 : s < prevT.length := by omega
          have hs2 : s < newT.length := by omega
          have hgd : prevT.reverse.getD s ' ' = newT.reverse.getD s ' ' := by
            rw [getD_reverse prevT s hs1, getD_reverse newT s hs2]
            exact heq
          rw [suffixLoopAux_eq fuel prevT newT bound (s + 1) hbm (by omega) (by omega)]
          rw [commonPrefixLen_drop_succ prevT.reverse newT.reverse s
            (by simpa using hs1) (by simpa using hs2) hgd]
          have harith : s + (commonPrefixLen (prevT.reverse.drop (s + 1))
              (newT.reverse.drop (s + 1)) + 1)
              = s + 1 + commonPrefixLen (prevT.reverse.drop (s + 1))
                  (newT.reverse.drop (s + 1)) := by omega
          rw [harith]
      · next hc =>
          rw [not_and_or] at hc
          rcases hc with hs | hne
          · have hs' : s = bound := by omega
            rw [hs', Nat.min_eq_right (Nat.le_add_right _ _)]
          · by_cases hs : s < bound
            · have hs1 : s < prevT.length := by omega
              have hs2 : s < newT.length := by omega
              have hgd : ¬ prevT.reverse.getD s ' ' = newT.reverse.getD s ' ' := by
                rw [getD_reverse prevT s hs1, getD_reverse newT s hs2]
                exact hne
              rw [commonPrefixLen_drop_zero prevT.reverse newT.reverse s
                (by simpa using hs1) (by simpa using hs2) hgd]
              simp only [Nat.add_zero, Nat.min_eq_left (Nat.le_of_lt hs)]
            · have hs' : s = bound := by omega
              rw [hs', Nat.min_eq_right (Nat.le_add_right _ _)]

theorem diffSuffixLen_eq (prevT newT : List Char) :
    diffSuffixLen prevT newT =
      min (commonPrefixLen prevT.reverse newT.reverse)
        (min prevT.length newT.length - diffPrefixLen prevT newT) := by
  unfold diffSuffixLen
  rw [suffixLoopAux_eq _ prevT newT _ 0 (by omega) (Nat.zero_le _) (by omega)]
  simp

theorem diffPrefixLen_le (prevT newT : List Char) :
    diffPrefixLen prevT newT ≤ min prevT.length newT.length := by
  rw [diffPrefixLen_eq]
  exact le_min (commonPrefixLen_le_left _ _) (commonPrefixLen_le_right _ _)

theorem diff_bound (prevT newT : List Char) :
    diffPrefixLen prevT newT + diffSuffixLen prevT newT ≤ min prevT.length newT.length := by
  have h1 := diffPrefixLen_le prevT newT
  have h2 : diffSuffixLen prevT newT
      ≤ min prevT.length newT.length - diffPrefixLen prevT newT := by
    rw [diffSuffixLen_eq]; exact min_le_right _ _
  omega

theorem take_diffPrefixLen_eq (prevT newT : List Char) :
    prevT.take (diffPrefixLen prevT newT) = newT.take (diffPrefixLen prevT newT) := by
  rw [diffPrefixLen_eq]
  exact take_commonPrefixLen_eq _ _

theorem drop_diffSuffixLen_eq (prevT newT : List Char) :
    prevT.drop (prevT.length - diffSuffixLen prevT newT)
      = newT.drop (newT.length - diffSuffixLen prevT newT) := by
  have hs : diffSuffixLen prevT newT ≤ commonPrefixLen prevT.reverse newT.reverse := by
    rw [diffSuffixLen_eq]; exact min_le_left _ _
  have h1 : prevT.reverse.take (diffSuffixLen prevT newT)
      = newT.reverse.take (diffSuffixLen prevT newT) := take_eq_of_le_commonPrefixLen hs
  rw [List.take_reverse, List.take_reverse] at h1
  exact List.reverse_injective h1

theorem take_append_slice_drop (l : List Char) (i j : Nat) (hij : i ≤ j) :
    l.take i ++ slice l i j ++ l.drop j = l := by
  unfold slice
  have h1 : l.drop j = (l.drop i).drop (j - i) := by
    rw [List.drop_drop]
    congr 1
    omega
  rw [List.append_assoc, h1, List.take_append_drop, List.take_append_drop]

theorem diff_splice (prevT newT : List Char) :
    prevT.take (diffPrefixLen prevT newT) ++ diffInserted prevT newT
      ++ prevT.drop (prevT.length - diffSuffixLen prevT newT) = newT := by
  have hb := diff_bound prevT newT
  have hmn : min prevT.length newT.length ≤ newT.length := min_le_right _ _
  rw [take_diffPrefixLen_eq, drop_diffSuffixLen_eq]
  unfold diffInserted
  exact take_append_slice_drop newT _ _ (by omega)

theorem slice_length (l : List Char) (i j : Nat) :
    (slice l i j).length = min (j - i) (l.length - i) := by
  unfold slice
  rw [List.length_take, List.length_drop]

theorem diffDeleted_length (prevT newT : List Char) :
    (diffDeleted prevT newT).length
      = prevT.length - diffSuffixLen prevT newT - diffPrefixLen prevT newT := by
  unfold diffDeleted
  rw [slice_length]
  omega

theorem eq_of_diff_empty {prevT newT : List Char}
    (hd : diffDeleted prevT newT = []) (hi : diffInserted prevT newT = []) :
    prevT = newT := by
  have h := diff_splice prevT newT
  have hb := diff_bound prevT newT
  have hmp : min prevT.length newT.length ≤ prevT.length := min_le_left _ _
  have hlen : prevT.length - diffSuffixLen prevT newT - diffPrefixLen prevT newT = 0 := by
    rw [← diffDeleted_length prevT newT, hd]
    rfl
  have hpe : prevT.length - diffSuffixLen prevT newT = diffPrefixLen prevT newT := by omega
  rw [hi, List.append_nil, hpe, List.take_append_drop] at h
  exact h

theorem computeEditOperation_eq_replace {prevT newT : List Char} (c : Nat)
    (hne : prevT ≠ newT) (hd : diffDeleted prevT newT ≠ [])
    (hi : diffInserted prevT newT ≠ []) :
    computeEditOperation prevT newT c
      = some ⟨OpType.replace, diffPrefixLen prevT newT, diffInserted prevT newT⟩ := by
  unfold computeEditOperation
  rw [if_neg hne, if_pos ⟨hd, hi⟩]

theorem computeEditOperation_eq_insert {prevT newT : List Char} (c : Nat)
    (hne : prevT ≠ newT) (hd : diffDeleted prevT newT = [])
    (hi : diffInserted prevT newT ≠ []) :
    computeEditOperation prevT newT c
      = some ⟨OpType.insert, diffPrefixLen prevT newT, diffInserted prevT newT⟩ := by
  unfold computeEditOperation
  rw [if_neg hne, if_neg (fun hc => hc.1 hd), if_pos hi]

theorem computeEditOperation_eq_delete {prevT newT : List Char} (c : Nat)
    (hne : prevT ≠ newT) (hd : diffDeleted prevT newT ≠ [])
    (hi : diffInserted prevT newT = []) :
    computeEditOperation prevT newT c
      = some ⟨OpType.delete, diffPrefixLen prevT newT, diffDeleted prevT newT⟩ := by
  unfold computeEditOperation
  rw [if_neg hne, if_neg (fun hc => hc.2 hi), if_neg (fun hc => hc hi), if_pos hd]

/-! ## Claims about the diff engine -/

/-- Claim C4: the diff is a no-op identity — for every string `a` and cursor
position `c`, `computeEditOperation(a, a, c)` returns `none`. -/
theorem c4_diff_noop (a : List Char) (c : Nat) : computeEditOperation a a c = none := by
  unfold computeEditOperation
  rw [if_pos rfl]

/-- Claim C10: the diff is cursor-independent — for all strings `a, b` and all
cursor positions `c, c'`, `computeEditOperation a b c = computeEditOperation a b c'`;
the `cursorPos` argument has no influence on the result. -/
theorem c10_cursor_independence (a b : List Char) (c c' : Nat) :
    computeEditOperation a b c = computeEditOperation a b c' := rfl

/-- Claim C2: single-transition correctness — for `a ≠ b` and any cursor `c`,
`computeEditOperation a b c` returns a (non-none) operation whose position is
the common-prefix length, and removing the deleted span
`a[p : len a − s]` at that position and inserting the inserted span
`b[p : len b − s]` there reproduces `b` exactly. -/
theorem c2_diff_single_transition (a b : List Char) (c : Nat) (h : a ≠ b) :
    ∃ op, computeEditOperation a b c = some op ∧
      op.position = diffPrefixLen a b ∧
      a.take op.position ++ diffInserted a b
        ++ a.drop (op.position + (diffDeleted a b).length) = b := by
  have hb := diff_bound a b
  have h1 : min a.length b.length ≤ a.length := min_le_left _ _
  have hsplice := diff_splice a b
  have hdrop : diffPrefixLen a b + (diffDeleted a b).length
      = a.length - diffSuffixLen a b := by
    rw [diffDeleted_length]
    omega
  by_cases hd : diffDeleted a b = [] <;> by_cases hi : diffInserted a b = []
  · exact absurd (eq_of_diff_empty hd hi) h
  · exact ⟨_, computeEditOperation_eq_insert c h hd hi, rfl, by rw [hdrop]; exact hsplice⟩
  · exact ⟨_, computeEditOperation_eq_delete c h hd hi, rfl, by rw [hdrop]; exact hsplice⟩
  · exact ⟨_, computeEditOperation_eq_replace c h hd hi, rfl, by rw [hdrop]; exact hsplice⟩

/-- Claim C2, checked at a concrete input: journaling the transition
`"hi" → "hi!"` yields an operation whose application reproduces `"hi!"`. -/
theorem c2_diff_single_transition_witness :
    (['h', 'i'] : List Char) ≠ ['h', 'i', '!'] ∧
    ∃ op, computeEditOperation ['h', 'i'] ['h', 'i', '!'] 0 = some op ∧
      op.position = diffPrefixLen ['h', 'i'] ['h', 'i', '!'] ∧
      (['h', 'i'] : List Char).take op.position ++ diffInserted ['h', 'i'] ['h', 'i', '!']
        ++ (['h', 'i'] : List Char).drop
            (op.position + (diffDeleted ['h', 'i'] ['h', 'i', '!']).length)
        = ['h', 'i', '!'] :=
  ⟨by decide, c2_diff_single_transition ['h', 'i'] ['h', 'i', '!'] 0 (by decide)⟩

/-- Claim C3: classification and position of the diff — for `prevT ≠ newT` the
returned position is the longest-common-prefix length (it is a common prefix
and no longer common prefix exists within both strings), the suffix search is
bounded so prefix and suffix never overlap, and the operation type and content
follow the non-emptiness of the deleted/inserted segments: both non-empty →
`replace` carrying the inserted text, only inserted → `insert` carrying it,
only deleted → `delete` carrying the deleted text. -/
theorem c3_diff_classification (prevT newT : List Char) (c : Nat) (h : prevT ≠ newT) :
    ∃ op, computeEditOperation prevT newT c = some op ∧
      op.position = diffPrefixLen prevT newT ∧
      prevT.take op.position = newT.take op.position ∧
      (∀ k, k ≤ prevT.length → k ≤ newT.length →
        prevT.take k = newT.take k → k ≤ op.position) ∧
      diffPrefixLen prevT newT + diffSuffixLen prevT newT ≤ min prevT.length newT.length ∧
      ((diffDeleted prevT newT ≠ [] ∧ diffInserted prevT newT ≠ []) →
        op.type = OpType.replace ∧ op.content = diffInserted prevT newT) ∧
      ((diffDeleted prevT newT = [] ∧ diffInserted prevT newT ≠ []) →
        op.type = OpType.insert ∧ op.content = diffInserted prevT newT) ∧
      ((diffDeleted prevT newT ≠ [] ∧ diffInserted prevT newT = []) →
        op.type = OpType.delete ∧ op.content = diffDeleted prevT newT) := by
  have hmax : ∀ k, k ≤ prevT.length → k ≤ newT.length →
      prevT.take k = newT.take k → k ≤ diffPrefixLen prevT newT := by
    intro k hk1 hk2 hke
    rw [diffPrefixLen_eq]
    exact le_commonPrefixLen_of_take_eq prevT newT k hk1 hk2 hke
  by_cases hd : diffDeleted prevT newT = [] <;> by_cases hi : diffInserted prevT newT = []
  · exact absurd (eq_of_diff_empty hd hi) h
  · exact ⟨_, computeEditOperation_eq_insert c h hd hi, rfl,
      take_diffPrefixLen_eq prevT newT, hmax, diff_bound prevT newT,
      fun hc => absurd hd hc.1.elim, fun _ => ⟨rfl, rfl⟩, fun hc => absurd hc.2 hi⟩
  · exact ⟨_, computeEditOperation_eq_delete c h hd hi, rfl,
      take_diffPrefixLen_eq prevT newT, hmax, diff_bound prevT newT,
      fun hc => absurd hi hc.2.elim, fun hc => absurd hc.1 hd, fun _ => ⟨rfl, rfl⟩⟩
  · exact ⟨_, computeEditOperation_eq_replace c h hd hi, rfl,
      take_diffPrefixLen_eq prevT newT, hmax, diff_bound prevT newT,
      fun _ => ⟨rfl, rfl⟩, fun hc => absurd hc.1 hd, fun hc => absurd hc.2 hi⟩

/-- Claim C3, checked at a concrete input: the transition `"abc" → "a"` is a
`delete` at position 1 carrying `"bc"`, with all the classification facts. -/
theorem c3_diff_classification_witness :
    (['a', 'b', 'c'] : List Char) ≠ ['a'] ∧
    ∃ op, computeEditOperation ['a', 'b', 'c'] ['a'] 0 = some op ∧
      op.position = diffPrefixLen ['a', 'b', 'c'] ['a'] ∧
      (['a', 'b', 'c'] : List Char).take op.position = (['a'] : List Char).take op.position ∧
      (∀ k, k ≤ (['a', 'b', 'c'] : List Char).length → k ≤ (['a'] : List Char).length →
        (['a', 'b', 'c'] : List Char).take k = (['a'] : List Char).take k →
          k ≤ op.position) ∧
      diffPrefixLen ['a', 'b', 'c'] ['a'] + diffSuffixLen ['a', 'b', 'c'] ['a']
        ≤ min (['a', 'b', 'c'] : List Char).length (['a'] : List Char).length ∧
      ((diffDeleted ['a', 'b', 'c'] ['a'] ≠ [] ∧ diffInserted ['a', 'b', 'c'] ['a'] ≠ []) →
        op.type = OpType.replace ∧ op.content = diffInserted ['a', 'b', 'c'] ['a']) ∧
      ((diffDeleted ['a', 'b', 'c'] ['a'] = [] ∧ diffInserted ['a', 'b', 'c'] ['a'] ≠ []) →
        op.type = OpType.insert ∧ op.content = diffInserted ['a', 'b', 'c'] ['a']) ∧
      ((diffDeleted ['a', 'b', 'c'] ['a'] ≠ [] ∧ diffInserted ['a', 'b', 'c'] ['a'] = []) →
        op.type = OpType.delete ∧ op.content = diffDeleted ['a', 'b', 'c'] ['a']) :=
  ⟨by decide, c3_diff_classification ['a', 'b', 'c'] ['a'] 0 (by decide)⟩

/-! ## Lemmas about the replayer -/

/-- One journalled transition replays correctly: for `prevT ≠ newT` the
journaling side produces an operation, and applying it (per the §4.3 replay
rules) to `prevT` yields `newT`. -/
theorem computeReplayOp_step {prevT newT : List Char} (hne : prevT ≠ newT) :
    ∃ rop, computeReplayOp prevT newT 0 = some rop ∧
      (applyReplayOp prevT rop).1 = newT := by
  have hb := diff_bound prevT newT
  have h1 : min prevT.length newT.length ≤ prevT.length := min_le_left _ _
  have hsplice := diff_splice prevT newT
  have hdl : diffPrefixLen prevT newT + (diffDeleted prevT newT).length
      = prevT.length - diffSuffixLen prevT newT := by
    rw [diffDeleted_length]
    omega
  by_cases hd : diffDeleted prevT newT = [] <;> by_cases hi : diffInserted prevT newT = []
  · exact absurd (eq_of_diff_empty hd hi) hne
  · -- insert: the deleted segment is empty, so `prefixLen = len prevT − suffixLen`
    refine ⟨_, by rw [computeReplayOp, computeEditOperation_eq_insert 0 hne hd hi], ?_⟩
    have hdl0 : (diffDeleted prevT newT).length = 0 := by rw [hd]; rfl
    have hdrop : prevT.drop (diffPrefixLen prevT newT)
        = prevT.drop (prevT.length - diffSuffixLen prevT newT) := by
      rw [show diffPrefixLen prevT newT = prevT.length - diffSuffixLen prevT newT by omega]
    simp only [applyReplayOp]
    rw [hdrop]
    exact hsplice
  · -- delete: the inserted segment is empty
    refine ⟨_, by rw [computeReplayOp, computeEditOperation_eq_delete 0 hne hd hi], ?_⟩
    simp only [applyReplayOp]
    rw [hdl]
    rw [hi, List.append_nil] at hsplice
    exact hsplice
  · -- replace: remove the overwritten span, insert the inserted segment
    refine ⟨_, by rw [computeReplayOp, computeEditOperation_eq_replace 0 hne hd hi], ?_⟩
    simp only [applyReplayOp]
    rw [hdl]
    exact hsplice

/-- Replaying the journal of a chain of pairwise-distinct texts materialises
exactly those texts as the frame contents, from any cursor and frame index. -/
theorem generateFramesAux_journal :
    ∀ (ts : List (List Char)) (prevT : List Char) (cursor idx : Nat),
      List.Chain' (fun x y => x ≠ y) (prevT :: ts) →
      (generateFramesAux prevT cursor idx (journalOps prevT ts)).map PlaybackFrame.content = ts
  | [], _, _, _, _ => rfl
  | t :: ts, prevT, cursor, idx, h => by
      rw [List.chain'_cons] at h
      obtain ⟨hne, hch⟩ := h
      obtain ⟨rop, hro, happ⟩ := computeReplayOp_step hne
      rw [journalOps, hro]
      simp only [generateFramesAux, List.map_cons]
      rw [happ]
      exact congrArg (t :: ·) (generateFramesAux_journal ts t _ _ hch)

/-! ## Claim C1 -/

/-- Claim C1: round-trip reconstruction — journaling every consecutive
transition of a text sequence `T0 = "", T1, …, Tn` (with `Tᵢ ≠ Tᵢ₊₁`) with
`computeEditOperation` and replaying the resulting operations in order against
the empty string per the §4.3 replay rules yields frames whose last content is
exactly `Tn` (replace transitions included). -/
theorem c1_round_trip (ts : List (List Char))
    (h : List.Chain' (fun x y => x ≠ y) ([] :: ts)) :
    (generateFrames (journalOps [] ts)).getLast?.map PlaybackFrame.content
      = ts.getLast? := by
  have hmap := generateFramesAux_journal ts [] 0 0 h
  calc (generateFrames (journalOps [] ts)).getLast?.map PlaybackFrame.content
      = ((generateFramesAux [] 0 0 (journalOps [] ts)).map PlaybackFrame.content).getLast? :=
        (List.getLast?_map _ _).symm
    _ = ts.getLast? := by rw [hmap]

/-- Claim C1, checked at a concrete input: the session `"" → "a" → "b"`
(whose second transition is a replace) reconstructs to final content `"b"`. -/
theorem c1_round_trip_witness :
    List.Chain' (fun x y => x ≠ y) ([] :: [['a'], ['b']] : List (List Char)) ∧
    (generateFrames (journalOps [] [['a'], ['b']])).getLast?.map PlaybackFrame.content
      = ([['a'], ['b']] : List (List Char)).getLast? :=
  ⟨by simp [List.chain'_cons], c1_round_trip [['a'], ['b']] (by simp [List.chain'_cons])⟩

/-! ## Lemmas about the delay calculator -/

theorem frameDelaysAux_getD (speed : ℚ) :
    ∀ (rest : List Int) (prevTs : Int) (i : Nat), i < rest.length →
      (frameDelaysAux speed prevTs rest).getD i 0
        = max 0 (((rest.getD i 0 - (prevTs :: rest).getD i 0 : Int) : ℚ) / speed)
  | [], _, i, h => by simp at h
  | t :: rest, prevTs, 0, _ => by
      simp [frameDelaysAux]
  | t :: rest, prevTs, i + 1, h => by
      have hi : i < rest.length := by simpa using h
      simpa [frameDelaysAux, List.getD_cons_succ] using
        frameDelaysAux_getD speed rest t i hi

theorem frameDelaysAux_nonneg (speed : ℚ) :
    ∀ (rest : List Int) (prevTs : Int), ∀ d ∈ frameDelaysAux speed prevTs rest, 0 ≤ d
  | [], _, d, hd => by simp [frameDelaysAux] at hd
  | t :: rest, prevTs, d, hd => by
      simp only [frameDelaysAux, List.mem_cons] at hd
      rcases hd with rfl | hd
      · exact le_max_left _ _
      · exact frameDelaysAux_nonneg speed rest t d hd

theorem max_zero_div_two (x : ℚ) : max 0 x / 2 = max 0 (x / 2) := by
  rcases le_total x 0 with h | h
  · rw [max_eq_left h, max_eq_left (by linarith), zero_div]
  · rw [max_eq_right h, max_eq_right (by linarith)]

theorem frameDelaysAux_speed_two :
    ∀ (rest : List Int) (prevTs : Int),
      frameDelaysAux 2 prevTs rest = (frameDelaysAux 1 prevTs rest).map (fun d => d / 2)
  | [], _ => rfl
  | t :: rest, prevTs => by
      simp only [frameDelaysAux, List.map_cons]
      rw [frameDelaysAux_speed_two rest t]
      congr 1
      rw [max_zero_div_two]
      norm_num

/-! ## Claim C8 -/

/-- Claim C8: delay calculation — for every frame/timestamp set, each computed
delay is the timestamp difference to the previous frame divided by the speed,
clamped so it is never negative even when source timestamps are out of order;
and at speed 2 every delay is exactly half the delay computed at speed 1 for
the identical timestamp set. -/
theorem c8_delay_calculation (ts : List Int) (speed : ℚ) (hs : 0 < speed) :
    (∀ i, i + 1 < ts.length →
      (calculateFrameDelays ts speed).getD i 0
        = max 0 (((ts.getD (i + 1) 0 - ts.getD i 0 : Int) : ℚ) / speed)) ∧
    (∀ d ∈ calculateFrameDelays ts speed, 0 ≤ d) ∧
    calculateFrameDelays ts 2 = (calculateFrameDelays ts 1).map (fun d => d / 2) := by
  refine ⟨?_, ?_, ?_⟩
  · intro i hi
    cases ts with
    | nil => simp at hi
    | cons t rest =>
        have hi' : i < rest.length := by simpa using hi
        simpa [calculateFrameDelays, List.getD_cons_succ] using
          frameDelaysAux_getD speed rest t i hi'
  · intro d hd
    cases ts with
    | nil => simp [calculateFrameDelays] at hd
    | cons t rest => exact frameDelaysAux_nonneg speed rest t d hd
  · cases ts with
    | nil => rfl
    | cons t rest => exact frameDelaysAux_speed_two rest t

/-- Claim C8, checked at a concrete input: the out-of-order timestamp set
`[0, 10, 4]` at speeds 1 and 2. -/
theorem c8_delay_calculation_witness :
    (0 : ℚ) < 1 ∧
    ((∀ i, i + 1 < ([0, 10, 4] : List Int).length →
      (calculateFrameDelays [0, 10, 4] 1).getD i 0
        = max 0 (((([0, 10, 4] : List Int).getD (i + 1) 0
            - ([0, 10, 4] : List Int).getD i 0 : Int) : ℚ) / 1)) ∧
    (∀ d ∈ calculateFrameDelays [0, 10, 4] 1, 0 ≤ d) ∧
    calculateFrameDelays [0, 10, 4] 2
      = (calculateFrameDelays [0, 10, 4] 1).map (fun d => d / 2)) :=
  ⟨by norm_num, c8_delay_calculation [0, 10, 4] 1 (by norm_num)⟩

/-! ## Lemmas about the operation log -/

theorem insertBySeq_ne_nil (r : EditRow) : ∀ l : List EditRow, insertBySeq r l ≠ []
  | [] => by simp [insertBySeq]
  | x :: xs => by
      simp only [insertBySeq]
      split <;> simp

theorem sortBySeq_eq_nil_iff : ∀ l : List EditRow, sortBySeq l = [] ↔ l = []
  | [] => by simp [sortBySeq]
  | x :: xs =>
      ⟨fun h => absurd h (insertBySeq_ne_nil x _), fun h => by simp at h⟩

theorem insertBySeq_map (f : EditRow → EditRow)
    (hf : ∀ r, (f r).sequence_num = r.sequence_num) (r : EditRow) :
    ∀ l : List EditRow, insertBySeq (f r) (l.map f) = (insertBySeq r l).map f
  | [] => by simp [insertBySeq]
  | x :: xs => by
      by_cases h : x.sequence_num < r.sequence_num
      · rw [List.map_cons, insertBySeq, if_pos (by rw [hf, hf]; exact h),
          insertBySeq, if_pos h, List.map_cons, insertBySeq_map f hf r xs]
      · rw [List.map_cons, insertBySeq, if_neg (by rw [hf, hf]; exact h),
          insertBySeq, if_neg h, List.map_cons, List.map_cons]

theorem sortBySeq_map (f : EditRow → EditRow)
    (hf : ∀ r, (f r).sequence_num = r.sequence_num) :
    ∀ l : List EditRow, sortBySeq (l.map f) = (sortBySeq l).map f
  | [] => rfl
  | x :: xs => by
      rw [List.map_cons, sortBySeq, sortBySeq, sortBySeq_map f hf xs, insertBySeq_map f hf]

theorem getEditOperations_eq_nil_iff (db : Db) (tid : Int) :
    getEditOperations db tid = [] ↔ ∀ r ∈ db.rows, r.thought_id ≠ some tid := by
  unfold getEditOperations
  rw [sortBySeq_eq_nil_iff, List.filter_eq_nil_iff]
  constructor
  · intro h r hr heq
    exact h r hr (by simp [heq])
  · intro h r hr hb
    exact h r hr (by simpa using hb)

theorem filter_map_upd_old (o n : Int) :
    ∀ rows : List EditRow, (∀ r ∈ rows, r.thought_id ≠ some n) →
      ((rows.map (fun r => if r.thought_id = some o
          then { r with thought_id := some n } else r)).filter
        (fun r => r.thought_id == some o)) = []
  | [], _ => rfl
  | r :: rows, h => by
      have hr : r.thought_id ≠ some n := h r (List.mem_cons_self r rows)
      have hrec := filter_map_upd_old o n rows (fun x hx => h x (List.mem_cons_of_mem r hx))
      by_cases hro : r.thought_id = some o
      · have hno : n ≠ o := fun he => hr (by rw [he]; exact hro)
        simp only [List.map_cons, if_pos hro, List.filter_cons]
        simp [hno, hrec]
      · simp only [List.map_cons, if_neg hro, List.filter_cons]
        simp [hro, hrec]

theorem filter_map_upd_new (o n : Int) :
    ∀ rows : List EditRow, (∀ r ∈ rows, r.thought_id ≠ some n) →
      ((rows.map (fun r => if r.thought_id = some o
          then { r with thought_id := some n } else r)).filter
        (fun r => r.thought_id == some n))
      = (rows.filter (fun r => r.thought_id == some o)).map
          (fun r => { r with thought_id := some n })
  | [], _ => rfl
  | r :: rows, h => by
      have hr : r.thought_id ≠ some n := h r (List.mem_cons_self r rows)
      have hrec := filter_map_upd_new o n rows (fun x hx => h x (List.mem_cons_of_mem r hx))
      by_cases hro : r.thought_id = some o
      · simp only [List.map_cons, if_pos hro, List.filter_cons]
        simp [hro, hrec]
      · simp only [List.map_cons, if_neg hro, List.filter_cons]
        simp [hro, hr, hrec]

theorem filter_filter_ne (i : Int) :
    ∀ rows : List EditRow,
      ((rows.filter (fun r => !(r.thought_id == some i))).filter
        (fun r => r.thought_id == some i)) = []
  | [] => rfl
  | r :: rows => by
      cases hb : r.thought_id == some i
      · simp [List.filter_cons, hb, filter_filter_ne i rows]
      · simp [List.filter_cons, hb, filter_filter_ne i rows]

theorem filter_delete_other (i other : Int) (hne : other ≠ i) :
    ∀ rows : List EditRow,
      ((rows.filter (fun r => !(r.thought_id == some i))).filter
        (fun r => r.thought_id == some other))
      = rows.filter (fun r => r.thought_id == some other)
  | [] => rfl
  | r :: rows => by
      by_cases hri : r.thought_id = some i
      · have hne' : i ≠ other := fun he => hne he.symm
        simp [List.filter_cons, hri, hne', filter_delete_other i other hne rows]
      · simp [List.filter_cons, hri, filter_delete_other i other hne rows]

/-! ## Claims C5, C6 and C7 -/

theorem seqsFor_appendStep (sid : Int) (st : RecState) (inp : AppendInput)
    (hinv : seqsFor st.db sid = List.range' 1 st.sequenceNum) :
    seqsFor (appendStep sid st inp).db sid
      = List.range' 1 (appendStep sid st inp).sequenceNum := by
  rcases hcomp : computeEditOperation inp.prevText inp.newText inp.cursor with _ | op
  · simpa [appendStep, hcomp] using hinv
  · unfold seqsFor at hinv ⊢
    simp only [appendStep, hcomp, createEditOperation]
    rw [List.filter_append, List.map_append, hinv, List.range'_1_concat]
    congr 1
    simp [Nat.add_comm]

theorem seqsFor_appendStep_other (sid other : Int) (hne : other ≠ sid)
    (st : RecState) (inp : AppendInput) :
    seqsFor (appendStep sid st inp).db other = seqsFor st.db other := by
  rcases hcomp : computeEditOperation inp.prevText inp.newText inp.cursor with _ | op
  · simp [appendStep, hcomp]
  · unfold seqsFor
    simp only [appendStep, hcomp, createEditOperation]
    rw [List.filter_append, List.map_append]
    simp [hne, Ne.symm hne]

theorem runAppends_inv (sid : Int) :
    ∀ (inputs : List AppendInput) (st : RecState),
      seqsFor st.db sid = List.range' 1 st.sequenceNum →
      seqsFor (runAppends sid st inputs).db sid
        = List.range' 1 (runAppends sid st inputs).sequenceNum
  | [], _, h => h
  | inp :: rest, st, h => by
      rw [runAppends]
      exact runAppends_inv sid rest _ (seqsFor_appendStep sid st inp h)

theorem runAppends_other (sid other : Int) (hne : other ≠ sid) :
    ∀ (inputs : List AppendInput) (st : RecState),
      seqsFor (runAppends sid st inputs).db other = seqsFor st.db other
  | [], _ => rfl
  | inp :: rest, st => by
      rw [runAppends, runAppends_other sid other hne rest _]
      exact seqsFor_appendStep_other sid other hne st inp

/-- Claim C5: sequence numbering — starting a session with an empty log and
the in-memory counter at 0, any series of appends through the record-mode
input path leaves the session's persisted `sequence_num`s being exactly the
contiguous run `1‥N` (as the list `range' 1 N`, so no duplicates and no gaps),
where `N` is the final counter value, each append having been assigned
`max existing + 1`; rows of every other session are untouched. -/
theorem c5_sequence_numbering (sid : Int) (st : RecState) (inputs : List AppendInput)
    (h0 : seqsFor st.db sid = []) (h1 : st.sequenceNum = 0) :
    seqsFor (runAppends sid st inputs).db sid
      = List.range' 1 (runAppends sid st inputs).sequenceNum ∧
    (∀ other : Int, other ≠ sid →
      seqsFor (runAppends sid st inputs).db other = seqsFor st.db other) := by
  constructor
  · exact runAppends_inv sid inputs st (by rw [h0, h1]; rfl)
  · intro other hne
    exact runAppends_other sid other hne inputs st

/-- Claim C5, checked at a concrete input: the session `"" → "h" → "hi"` under
provisional id −5 persists sequence numbers `[1, 2]`, other sessions empty. -/
theorem c5_sequence_numbering_witness :
    seqsFor (⟨⟨[], 0⟩, 0⟩ : RecState).db (-5) = [] ∧
    (⟨⟨[], 0⟩, 0⟩ : RecState).sequenceNum = 0 ∧
    (seqsFor (runAppends (-5) ⟨⟨[], 0⟩, 0⟩
          [⟨[], ['h'], 1, 100⟩, ⟨['h'], ['h', 'i'], 2, 200⟩]).db (-5)
        = List.range' 1 (runAppends (-5) ⟨⟨[], 0⟩, 0⟩
            [⟨[], ['h'], 1, 100⟩, ⟨['h'], ['h', 'i'], 2, 200⟩]).sequenceNum ∧
      (∀ other : Int, other ≠ -5 →
        seqsFor (runAppends (-5) ⟨⟨[], 0⟩, 0⟩
            [⟨[], ['h'], 1, 100⟩, ⟨['h'], ['h', 'i'], 2, 200⟩]).db other
          = seqsFor (⟨⟨[], 0⟩, 0⟩ : RecState).db other)) :=
  ⟨rfl, rfl, c5_sequence_numbering (-5) ⟨⟨[], 0⟩, 0⟩
    [⟨[], ['h'], 1, 100⟩, ⟨['h'], ['h', 'i'], 2, 200⟩] rfl rfl⟩

/-- Claim C6 fails as stated: reassigning session 1 onto a target session 2
that already holds an operation leaves `list(2)` with both operations, not
"exactly the operations previously under 1". -/
theorem c6_reassignment_counterexample :
    (getEditOperations (updateEditOperationsThoughtId
        ⟨[⟨0, some 1, 1, "insert", 0, ['a'], 1, 100⟩,
          ⟨1, some 2, 5, "insert", 0, ['b'], 1, 200⟩], 2⟩ (some 1) 2) 2).map EditRow.id
      ≠ (getEditOperations
          ⟨[⟨0, some 1, 1, "insert", 0, ['a'], 1, 100⟩,
            ⟨1, some 2, 5, "insert", 0, ['b'], 1, 200⟩], 2⟩ 1).map EditRow.id := by
  decide

/-- Claim C6 (amended): identity reassignment — provided the target session
holds no operations beforehand, after `updateEditOperationsThoughtId (some o) n`
the source session lists empty and the target lists exactly the operations
previously under the source, in the same order, relabelled with the new id. -/
theorem c6_amended_reassignment (db : Db) (o n : Int)
    (hfree : getEditOperations db n = []) :
    getEditOperations (updateEditOperationsThoughtId db (some o) n) o = [] ∧
    getEditOperations (updateEditOperationsThoughtId db (some o) n) n
      = (getEditOperations db o).map (fun r => { r with thought_id := some n }) := by
  have hrows : ∀ r ∈ db.rows, r.thought_id ≠ some n :=
    (getEditOperations_eq_nil_iff db n).mp hfree
  constructor
  · unfold getEditOperations updateEditOperationsThoughtId
    rw [filter_map_upd_old o n db.rows hrows]
    rfl
  · unfold getEditOperations updateEditOperationsThoughtId
    rw [filter_map_upd_new o n db.rows hrows]
    exact sortBySeq_map (fun r => { r with thought_id := some n }) (fun _ => rfl)
      (db.rows.filter (fun r => r.thought_id == some o))

/-- Claim C6 (amended), checked at a concrete input: one operation under
session 1, none under session 2, reassigned 1 → 2. -/
theorem c6_amended_reassignment_witness :
    getEditOperations ⟨[⟨0, some 1, 1, "insert", 0, ['a'], 1, 100⟩], 1⟩ 2 = [] ∧
    (getEditOperations (updateEditOperationsThoughtId
        ⟨[⟨0, some 1, 1, "insert", 0, ['a'], 1, 100⟩], 1⟩ (some 1) 2) 1 = [] ∧
      getEditOperations (updateEditOperationsThoughtId
          ⟨[⟨0, some 1, 1, "insert", 0, ['a'], 1, 100⟩], 1⟩ (some 1) 2) 2
        = (getEditOperations ⟨[⟨0, some 1, 1, "insert", 0, ['a'], 1, 100⟩], 1⟩ 1).map
            (fun r => { r with thought_id := some 2 })) :=
  ⟨by decide, c6_amended_reassignment
    ⟨[⟨0, some 1, 1, "insert", 0, ['a'], 1, 100⟩], 1⟩ 1 2 (by decide)⟩

/-- Claim C7: discard is complete and framed — after
`deleteEditOperations (some i)` the session `i` lists empty, and every other
session identifier lists exactly the same rows (same fields, same order) as
before. -/
theorem c7_discard_frame (db : Db) (i : Int) :
    getEditOperations (deleteEditOperations db (some i)) i = [] ∧
    ∀ other : Int, other ≠ i →
      getEditOperations (deleteEditOperations db (some i)) other
        = getEditOperations db other := by
  constructor
  · unfold getEditOperations deleteEditOperations
    rw [filter_filter_ne i db.rows]
    rfl
  · intro other hne
    unfold getEditOperations deleteEditOperations
    rw [filter_delete_other i other hne db.rows]

/-- Claim C7, checked at a concrete input: deleting session 1 empties it and
leaves session 2 listing as before. -/
theorem c7_discard_frame_witness :
    getEditOperations (deleteEditOperations
        ⟨[⟨0, some 1, 1, "insert", 0, ['a'], 1, 100⟩,
          ⟨1, some 2, 1, "insert", 0, ['b'], 1, 200⟩], 2⟩ (some 1)) 1 = [] ∧
    (2 : Int) ≠ 1 ∧
    getEditOperations (deleteEditOperations
        ⟨[⟨0, some 1, 1, "insert", 0, ['a'], 1, 100⟩,
          ⟨1, some 2, 1, "insert", 0, ['b'], 1, 200⟩], 2⟩ (some 1)) 2
      = getEditOperations
          ⟨[⟨0, some 1, 1, "insert", 0, ['a'], 1, 100⟩,
            ⟨1, some 2, 1, "insert", 0, ['b'], 1, 200⟩], 2⟩ 2 :=
  ⟨(c7_discard_frame ⟨[⟨0, some 1, 1, "insert", 0, ['a'], 1, 100⟩,
      ⟨1, some 2, 1, "insert", 0, ['b'], 1, 200⟩], 2⟩ 1).1,
    by decide,
    (c7_discard_frame ⟨[⟨0, some 1, 1, "insert", 0, ['a'], 1, 100⟩,
      ⟨1, some 2, 1, "insert", 0, ['b'], 1, 200⟩], 2⟩ 1).2 2 (by decide)⟩

/-! ## Lemmas about the recording state machine -/

theorem panelStep_sessionId (st : PanelState) (e : PanelEvent) :
    (panelStep st e).currentSessionId = st.currentSessionId := by
  cases e <;> simp only [panelStep] <;> (repeat' split) <;> rfl

theorem runPanel_sessionId : ∀ (es : List PanelEvent) (st : PanelState),
    (runPanel st es).currentSessionId = st.currentSessionId
  | [], _ => rfl
  | e :: es, st => by
      rw [runPanel, runPanel_sessionId es _, panelStep_sessionId]

theorem panelStep_inv {st : PanelState}
    (h1 : st.editCount = st.sequenceNum)
    (h2 : st.recordMode = false → st.sequenceNum = 0) (e : PanelEvent) :
    (panelStep st e).editCount = (panelStep st e).sequenceNum ∧
      ((panelStep st e).recordMode = false → (panelStep st e).sequenceNum = 0) := by
  cases e with
  | toggleRecord =>
      simp only [panelStep]
      split
      · exact ⟨rfl, fun _ => rfl⟩
      · next hc =>
          refine ⟨h1, fun hoff => ?_⟩
          have hz : ¬ st.editCount > 0 := fun hgt => hc ⟨hoff, hgt⟩
          show st.sequenceNum = 0
          omega
  | inputChange v c =>
      simp only [panelStep]
      split
      · next hrec =>
          split
          · exact ⟨rfl, fun hoff => by rw [hrec] at hoff; exact absurd hoff (by simp)⟩
          · exact ⟨h1, fun hoff => by rw [hrec] at hoff; exact absurd hoff (by simp)⟩
      · next hrec =>
          exact ⟨h1, fun _ => h2 (by revert hrec; cases st.recordMode <;> simp)⟩
  | confirmDiscard =>
      simp only [panelStep]
      split
      · exact ⟨rfl, fun _ => rfl⟩
      · exact ⟨h1, h2⟩
  | escape =>
      simp only [panelStep]
      (repeat' split) <;> exact ⟨h1, h2⟩
  | submitSuccess => exact ⟨rfl, fun _ => rfl⟩

theorem panelStep_recordOn_seq {st : PanelState}
    (h2 : st.recordMode = false → st.sequenceNum = 0) (e : PanelEvent)
    (hoff : st.recordMode = false) (hon : (panelStep st e).recordMode = true) :
    (panelStep st e).sequenceNum = 0 := by
  cases e with
  | toggleRecord =>
      simp only [panelStep, hoff, Bool.not_false] at hon ⊢
      rw [if_neg (by simp)] at hon ⊢
      exact h2 hoff
  | inputChange v c =>
      simp only [panelStep, hoff] at hon
      rw [if_neg (by simp)] at hon
      exact absurd hon (by simp [hoff])
  | confirmDiscard =>
      simp only [panelStep] at hon
      split at hon
      · exact absurd hon (by simp)
      · exact absurd hon (by simp [hoff])
  | escape =>
      simp only [panelStep] at hon ⊢
      (repeat' split) <;> (repeat' split at hon) <;>
        first
          | exact h2 hoff
          | exact absurd hon (by simp [hoff])
  | submitSuccess =>
      simp only [panelStep] at hon
      exact absurd hon (by simp)

theorem recordStartIds_eq :
    ∀ (es : List PanelEvent) (st : PanelState),
      ∀ x ∈ recordStartIds st es, x = st.currentSessionId
  | [], _, x, hx => by simp [recordStartIds] at hx
  | e :: es, st, x, hx => by
      simp only [recordStartIds] at hx
      split at hx
      · rcases List.mem_cons.mp hx with rfl | hx'
        · exact panelStep_sessionId st e
        · rw [recordStartIds_eq es _ x hx', panelStep_sessionId]
      · rw [recordStartIds_eq es _ x hx, panelStep_sessionId]

theorem recordStartSeqs_eq_zero :
    ∀ (es : List PanelEvent) (st : PanelState),
      st.editCount = st.sequenceNum → (st.recordMode = false → st.sequenceNum = 0) →
      ∀ x ∈ recordStartSeqs st es, x = 0
  | [], _, _, _, x, hx => by simp [recordStartSeqs] at hx
  | e :: es, st, h1, h2, x, hx => by
      simp only [recordStartSeqs] at hx
      obtain ⟨h1', h2'⟩ := panelStep_inv h1 h2 e
      split at hx
      · next hc =>
          rcases List.mem_cons.mp hx with rfl | hx'
          · exact panelStep_recordOn_seq h2 e hc.1 hc.2
          · exact recordStartSeqs_eq_zero es _ h1' h2' x hx'
      · exact recordStartSeqs_eq_zero es _ h1' h2' x hx

/-! ## Claim C9 -/

/-- Claim C9 fails as stated: within one panel mount, toggling record mode on,
editing, toggling off and toggling on again starts a second recording session
whose provisional identity equals the first one's (`useState(() => -Date.now())`
runs once per mount) — the identities at the two Idle → Recording transitions
are not pairwise distinct. -/
theorem c9_counterexample_identity_reuse :
    recordStartIds (initPanel 1000)
        [PanelEvent.toggleRecord, PanelEvent.inputChange ['a'] 1,
          PanelEvent.toggleRecord, PanelEvent.toggleRecord]
      = [-1000, -1000] ∧
    ¬ List.Pairwise (fun x y => x ≠ y)
        (recordStartIds (initPanel 1000)
          [PanelEvent.toggleRecord, PanelEvent.inputChange ['a'] 1,
            PanelEvent.toggleRecord, PanelEvent.toggleRecord]) := by
  refine ⟨by decide, fun h => ?_⟩
  rw [show recordStartIds (initPanel 1000)
      [PanelEvent.toggleRecord, PanelEvent.inputChange ['a'] 1,
        PanelEvent.toggleRecord, PanelEvent.toggleRecord] = [-1000, -1000] by decide] at h
  exact (List.pairwise_cons.mp h).1 (-1000) (List.mem_cons_self _ _) rfl

/-- Claim C9 (amended): the provisional session identity is allocated once per
panel mount as the negated mount time — negative, hence distinguishable by
sign from any real note id — and is shared by every recording session of that
mount (it never changes across events, and every Idle → Recording transition
sees that same identity); the sequence counter is 0 at each Idle → Recording
transition. -/
theorem c9_amended_provisional_identity (t : Int) (ht : 0 < t)
    (events : List PanelEvent) :
    (initPanel t).currentSessionId < 0 ∧
    (runPanel (initPanel t) events).currentSessionId = (initPanel t).currentSessionId ∧
    (∀ x ∈ recordStartIds (initPanel t) events, x = (initPanel t).currentSessionId) ∧
    (∀ x ∈ recordStartSeqs (initPanel t) events, x = 0) :=
  ⟨by simp only [initPanel]; omega,
    runPanel_sessionId events _,
    fun x hx => recordStartIds_eq events _ x hx,
    fun x hx => recordStartSeqs_eq_zero events _ rfl (fun _ => rfl) x hx⟩

/-- Claim C9 (amended), checked at a concrete input: mount time 1000 and the
double-session trace. -/
theorem c9_amended_provisional_identity_witness :
    (0 : Int) < 1000 ∧
    ((initPanel 1000).currentSessionId < 0 ∧
    (runPanel (initPanel 1000)
        [PanelEvent.toggleRecord, PanelEvent.inputChange ['a'] 1,
          PanelEvent.toggleRecord, PanelEvent.toggleRecord]).currentSessionId
      = (initPanel 1000).currentSessionId ∧
    (∀ x ∈ recordStartIds (initPanel 1000)
        [PanelEvent.toggleRecord, PanelEvent.inputChange ['a'] 1,
          PanelEvent.toggleRecord, PanelEvent.toggleRecord],
      x = (initPanel 1000).currentSessionId) ∧
    (∀ x ∈ recordStartSeqs (initPanel 1000)
        [PanelEvent.toggleRecord, PanelEvent.inputChange ['a'] 1,
          PanelEvent.toggleRecord, PanelEvent.toggleRecord], x = 0)) :=
  ⟨by decide, c9_amended_provisional_identity 1000 (by decide)
    [PanelEvent.toggleRecord, PanelEvent.inputChange ['a'] 1,
      PanelEvent.toggleRecord, PanelEvent.toggleRecord]⟩

end Wazzup
